import Mathlib

/-!
# Verification of the remgen content-generation kernel

Shallow embedding of the content-generation kernel of the repository:
the weighted generator dispatch (`app.py` / `private_api_server.py`),
the anti-repetition recency tracker, the content cleaner, the category
pool index with tiered sampling, and the output formatter
(`enhanced_ultimate_edge_generator.py`, `simple_enhanced_edge_generator.py`).

Python strings are modelled as Lean `String` / `List Char` (Python `len`
counts code points, as does `String.length`); the regex pipeline of the
content cleaner is embedded as explicit character scanners; random draws
(`random.random()`, `DataFrame.sample`) are passed in as explicit
parameters; quality scores are rationals.
-/

namespace Remgen

/-- Characters matched by Python's regex `\s` (ASCII fragment; the datasets
and theorems here stay in ASCII). -/
def isSpaceChar (c : Char) : Bool :=
  c = ' ' || c = '\t' || c = '\n' || c = '\r' || c = '\x0b' || c = '\x0c'

/-- Characters matched by Python's regex `\w` (ASCII fragment), used for the
`\b` word boundaries in the cleaning patterns. -/
def isWordChar (c : Char) : Bool :=
  c.isAlphanum || c = '_'

/-- Python `s.rsplit(sep, 1)[0]`: everything strictly before the last
occurrence of `sep`; the whole list when `sep` does not occur. -/
def beforeLast (sep : Char) (l : List Char) : List Char :=
  if l.contains sep then ((l.reverse.dropWhile (fun c => c ≠ sep)).drop 1).reverse
  else l

/-- `EnhancedUltimateEdgeGenerator.apply_length_constraints`
(`enhanced_ultimate_edge_generator.py`, lines 197-211): inputs shorter than
10 become `""`; inputs longer than 280 are truncated to 277 characters and
cut at the last `'.'` (keeping it), else at the last `','`, else suffixed
with `"..."`; everything else is returned unchanged. -/
def apply_length_constraints (content : String) : String :=
  if content.length < 10 then ""
  else if content.length > 280 then
    let truncated := content.toList.take 277
    if truncated.contains '.' then
      ((beforeLast '.' truncated) ++ ['.']).asString
    else if truncated.contains ',' then
      (beforeLast ',' truncated).asString
    else
      (truncated ++ ("...".toList)).asString
  else content

theorem length_dropWhile_le (p : Char → Bool) (l : List Char) :
    (l.dropWhile p).length ≤ l.length := by
  induction l with
  | nil => simp
  | cons a t ih =>
      rw [List.dropWhile_cons]
      split
      · simp only [List.length_cons]; omega
      · simp

theorem beforeLast_length_le (sep : Char) (l : List Char) :
    (beforeLast sep l).length ≤ l.length := by
  unfold beforeLast
  split
  · calc ((l.reverse.dropWhile (fun c => c ≠ sep)).drop 1).reverse.length
        = ((l.reverse.dropWhile (fun c => c ≠ sep)).drop 1).length := by
          rw [List.length_reverse]
      _ ≤ (l.reverse.dropWhile (fun c => c ≠ sep)).length := by
          rw [List.length_drop]; omega
      _ ≤ l.reverse.length := length_dropWhile_le _ _
      _ = l.length := List.length_reverse l
  · exact le_refl _

/-- C8: For every input text, the Output Formatter
(`apply_length_constraints`, `max_len = 280`) returns a string of length at
most 280, on the unchanged branch as well as on all three truncation
branches (last sentence boundary, last clause boundary, hard truncation
plus ellipsis). -/
theorem apply_length_constraints_le_280 (content : String) :
    (apply_length_constraints content).length ≤ 280 := by
  unfold apply_length_constraints
  split
  · simp
  · split
    · have htr : (content.toList.take 277).length ≤ 277 := by
        simp
      dsimp only
      split
      · have hb := beforeLast_length_le '.' (content.toList.take 277)
        simp only [String.length, List.asString]
        simp only [List.length_append, List.length_singleton]
        omega
      · split
        · have hb := beforeLast_length_le ',' (content.toList.take 277)
          simp only [String.length, List.asString]
          omega
        · simp only [String.length, List.asString, List.length_append]
          have : ("...".toList).length = 3 := by decide
          omega
    · omega

/-- C10 (implicit behaviour): every input of length below 10 is mapped to
the empty string by the Output Formatter, even though such inputs are
within the 280-character limit. -/
theorem apply_length_constraints_short_input (content : String)
    (h : content.length < 10) : apply_length_constraints content = "" := by
  unfold apply_length_constraints
  simp [h]

/-- Witness for C10 at the concrete input `"hello"`. -/
theorem apply_length_constraints_short_input_witness :
    ("hello".length < 10) ∧ apply_length_constraints "hello" = "" :=
  ⟨by decide, apply_length_constraints_short_input "hello" (by decide)⟩

/-- C7 counterexample: `"hello"` has length 5 ≤ 280 but the Output
Formatter does not return it unchanged — it returns `""`. -/
theorem apply_length_constraints_not_id_below_10 :
    ("hello".length ≤ 280) ∧ apply_length_constraints "hello" ≠ "hello" := by
  constructor
  · decide
  · decide

/-- C7 (amended): the Output Formatter returns the text unchanged exactly
on the inputs whose length lies between 10 and 280; inputs shorter than
10 characters are mapped to `""` instead. -/
theorem apply_length_constraints_id_of_in_range (content : String)
    (h10 : 10 ≤ content.length) (h280 : content.length ≤ 280) :
    apply_length_constraints content = content := by
  unfold apply_length_constraints
  have h1 : ¬ content.length < 10 := by omega
  have h2 : ¬ content.length > 280 := by omega
  simp [h1, h2]

/-- Witness for the amended C7 at the concrete input
`"a dozen chars"` (length 13). -/
theorem apply_length_constraints_id_of_in_range_witness :
    (10 ≤ "a dozen chars".length) ∧ ("a dozen chars".length ≤ 280) ∧
      apply_length_constraints "a dozen chars" = "a dozen chars" :=
  ⟨by decide, by decide,
    apply_length_constraints_id_of_in_range "a dozen chars" (by decide) (by decide)⟩

/-! ## Recency Tracker (`enhanced_ultimate_edge_generator.py`, lines 97-114) -/

/-- The recency tracker's size cap (`self.max_recent = 100`). -/
def max_recent : ℕ := 100

/-- `get_content_hash`: the source computes a deterministic digest of the
exact content text (md5 truncated to 12 hex chars).  The digest is modelled
as the text itself — deterministic and injective, which is all any claim
uses (the spec §4.3 documents exact-text hashing). -/
def get_content_hash (content : String) : String := content

/-- `track_content_usage` (lines 106-114): add the content hash to the
`recent_content` set, and when the size exceeds `max_recent` keep only the
slice `list(...)[-max_recent:]`.  The Python `set` is modelled as a
duplicate-free list in insertion order (`add` inserts if absent); the
eviction slice keeps the last `max_recent` entries of that order — the
source's set order is arbitrary and the spec (§9) treats the eviction order
as an implementation choice. -/
def track_content_usage (recent : List String) (content : String) : List String :=
  let h := get_content_hash content
  let recent' := if recent.contains h then recent else recent ++ [h]
  if max_recent < recent'.length then recent'.drop (recent'.length - max_recent)
  else recent'

theorem track_content_usage_length_le (recent : List String) (content : String) :
    (track_content_usage recent content).length ≤ max_recent := by
  have key : ∀ l : List String,
      (if max_recent < l.length then l.drop (l.length - max_recent) else l).length
        ≤ max_recent := by
    intro l
    split
    · rw [List.length_drop]; omega
    · omega
  unfold track_content_usage
  exact key _

/-- C4: starting from the empty tracker, after any sequence of
`track_content_usage` calls the recency set holds at most `max_recent`
(= 100) fingerprints; since the sequence is arbitrary this bounds the size
after every call of every run. -/
theorem track_content_usage_fold_length_le (calls : List String) :
    (calls.foldl track_content_usage []).length ≤ max_recent := by
  have general : ∀ (cs : List String) (rc : List String), rc.length ≤ max_recent →
      (cs.foldl track_content_usage rc).length ≤ max_recent := by
    intro cs
    induction cs with
    | nil => intro rc h; simpa using h
    | cons c rest ih =>
        intro rc _
        simpa using ih (track_content_usage rc c) (track_content_usage_length_le rc c)
  exact general calls [] (by simp [max_recent])

/-! ## Generator Dispatcher: cumulative-weight selection
(`app.py` lines 471-594, `private_api_server.py` lines 111-148) -/

/-- The dispatcher's draw, generalized over the registry's cumulative-weight
boundaries: `rand_val = random.random()` followed by the chained
`if rand_val < c₁: ... elif rand_val < c₂: ...` walks the boundaries in
order and selects the first generator (1-based) whose cumulative upper
bound exceeds the draw; when no bound exceeds it the final `else` branch,
numbered `bounds.length + 1`, is taken. -/
def select_generator (bounds : List ℚ) (r : ℚ) : ℕ :=
  match bounds with
  | [] => 1
  | b :: rest => if r < b then 1 else select_generator rest r + 1

/-- The inclusive lower end of generator `i`'s half-open slice of `[0,1)`:
`0` for the first generator, the previous cumulative bound otherwise. -/
def cum_lower (bounds : List ℚ) (i : ℕ) : ℚ :=
  if i = 0 then 0 else bounds.getD (i - 1) 0

theorem select_generator_pos (bounds : List ℚ) (r : ℚ) :
    1 ≤ select_generator bounds r := by
  induction bounds with
  | nil => simp [select_generator]
  | cons b rest ih =>
      rw [select_generator]
      split
      · exact le_refl 1
      · omega

/-- C1: with monotone cumulative boundaries and a draw `r ≥ 0`, the
dispatcher selects generator `i + 1` exactly when `r` lies in its half-open
cumulative-weight slice — inclusive lower bound (`0` resp. the previous
cumulative bound) and exclusive upper bound (`bounds[i]`). -/
theorem select_generator_slice (bounds : List ℚ) (r : ℚ) (i : ℕ)
    (hsort : List.Sorted (· ≤ ·) bounds) (hr : 0 ≤ r) (hi : i < bounds.length) :
    select_generator bounds r = i + 1 ↔
      cum_lower bounds i ≤ r ∧ r < bounds.getD i 0 := by
  induction bounds generalizing i with
  | nil => simp at hi
  | cons b rest ih =>
      match i with
      | 0 =>
          simp only [cum_lower, if_pos rfl, List.getD_cons_zero]
          rw [select_generator]
          constructor
          · intro h
            split at h
            · exact ⟨hr, by assumption⟩
            · have := select_generator_pos rest r
              omega
          · intro ⟨_, hlt⟩
            rw [if_pos hlt]
      | j + 1 =>
          have hj' : j < rest.length := by simpa using Nat.lt_of_succ_lt_succ hi
          have hmem : (b :: rest).getD (j + 1) 0 ∈ rest := by
            rw [List.getD_cons_succ, List.getD_eq_getElem rest 0 hj']
            exact List.getElem_mem hj'
          have hble : b ≤ (b :: rest).getD (j + 1) 0 :=
            (List.sorted_cons.mp hsort).1 _ hmem
          rw [select_generator]
          split
          · -- r < b: generator 1 is selected, and slice j+2 is disjoint from [0,b)
            rename_i hlt
            constructor
            · intro h; omega
            · intro ⟨hlow, _⟩
              exfalso
              have : (b :: rest).getD (j + 1) 0 = cum_lower (b :: rest) (j + 1 + 1) := by
                simp [cum_lower]
              -- cum_lower (b::rest) (j+1) ≥ b would contradict r < b ≤ cum_lower ≤ r
              have hlow' : b ≤ r := by
                have : cum_lower (b :: rest) (j + 1) = (b :: rest).getD j 0 := by
                  simp [cum_lower]
                rw [this] at hlow
                rcases Nat.eq_zero_or_pos j with hj | hj
                · subst hj; simpa using hlow
                · have hjm : j - 1 < rest.length := by omega
                  have hmem' : (b :: rest).getD j 0 ∈ rest := by
                    rw [show j = (j - 1) + 1 by omega, List.getD_cons_succ,
                      List.getD_eq_getElem rest 0 hjm]
                    exact List.getElem_mem hjm
                  have := (List.sorted_cons.mp hsort).1 _ hmem'
                  linarith
              linarith
          · rename_i hge
            push_neg at hge
            have hrest : List.Sorted (· ≤ ·) rest := (List.sorted_cons.mp hsort).2
            have hj : j < rest.length := by simpa using Nat.lt_of_succ_lt_succ hi
            have := ih j hrest hj
            constructor
            · intro h
              have hsel : select_generator rest r = j + 1 := by omega
              obtain ⟨hlow, hup⟩ := this.mp hsel
              refine ⟨?_, by simpa [List.getD_cons_succ] using hup⟩
              rcases Nat.eq_zero_or_pos j with hj0 | hj0
              · subst hj0; simpa [cum_lower] using hge
              · have : cum_lower (b :: rest) (j + 1) = cum_lower rest j := by
                  simp only [cum_lower, if_neg (by omega : ¬ j + 1 = 0),
                    if_neg (by omega : ¬ j = 0)]
                  rw [show j + 1 - 1 = (j - 1) + 1 by omega, List.getD_cons_succ]
                rw [this]
                exact hlow
            · intro ⟨hlow, hup⟩
              have hlow' : cum_lower rest j ≤ r := by
                rcases Nat.eq_zero_or_pos j with hj0 | hj0
                · subst hj0; simpa [cum_lower] using hr
                · have : cum_lower (b :: rest) (j + 1) = cum_lower rest j := by
                    simp only [cum_lower, if_neg (by omega : ¬ j + 1 = 0),
                      if_neg (by omega : ¬ j = 0)]
                    rw [show j + 1 - 1 = (j - 1) + 1 by omega, List.getD_cons_succ]
                  rw [this] at hlow
                  exact hlow
              have hup' : r < rest.getD j 0 := by
                simpa [List.getD_cons_succ] using hup
              have := this.mpr ⟨hlow', hup'⟩
              omega

/-- Witness for C1 at the spec's registry `[0.2, 0.4, 1.0]`: a draw of
`0.1` selects generator 1, `0.35` selects generator 2, and `0.9` selects
generator 3. -/
theorem select_generator_slice_witness :
    select_generator [1/5, 2/5, 1] (1/10) = 1 ∧
      select_generator [1/5, 2/5, 1] (7/20) = 2 ∧
      select_generator [1/5, 2/5, 1] (9/10) = 3 := by
  have hs : List.Sorted (· ≤ ·) [(1:ℚ)/5, 2/5, 1] := by
    simp [List.sorted_cons]
    norm_num
  refine ⟨?_, ?_, ?_⟩
  · exact (select_generator_slice [1/5, 2/5, 1] (1/10) 0 hs (by norm_num)
      (by simp)).mpr ⟨by norm_num [cum_lower], by norm_num⟩
  · exact (select_generator_slice [1/5, 2/5, 1] (7/20) 1 hs (by norm_num)
      (by simp)).mpr ⟨by norm_num [cum_lower], by norm_num⟩
  · exact (select_generator_slice [1/5, 2/5, 1] (9/10) 2 hs (by norm_num)
      (by simp)).mpr ⟨by norm_num [cum_lower], by norm_num⟩

/-! ## String scanning machinery shared by the embedded regex pipeline -/

/-- Match `pat` against a prefix of `l`, comparing characters through the
normalizer `norm` (`id` for case-sensitive, `Char.toLower` for the
`re.IGNORECASE` patterns); returns the remainder on success. -/
def matchPrefix (norm : Char → Char) : List Char → List Char → Option (List Char)
  | [], l => some l
  | _ :: _, [] => none
  | p :: ps, c :: cs => if norm p = norm c then matchPrefix norm ps cs else none

/-- Fuelled scanner for `re.sub(pat, '', text)` with a literal pattern
(also Python's `text.replace(pat, '')`): delete every non-overlapping
occurrence, scanning left to right.  `fuel ≥ text.length` makes the scan
total; all wrappers pass exactly `text.length`. -/
def removeAllSubstrAux (norm : Char → Char) (pat : List Char) :
    ℕ → List Char → List Char
  | 0, _ => []
  | _ + 1, [] => []
  | n + 1, c :: cs =>
    match matchPrefix norm pat (c :: cs) with
    | some rest => removeAllSubstrAux norm pat n rest
    | none => c :: removeAllSubstrAux norm pat n cs

/-- Delete every occurrence of the literal pattern `pat` (case-sensitive):
Python `text.replace(pat, '')`. -/
def remove_occurrences (pat : String) (text : String) : String :=
  (removeAllSubstrAux id pat.toList text.toList.length text.toList).asString

/-- Delete every occurrence of the literal pattern `pat` case-insensitively:
`re.sub(pat, '', text, flags=re.IGNORECASE)` for a pattern with no
metacharacters. -/
def remove_occurrences_ci (pat : String) (text : List Char) : List Char :=
  removeAllSubstrAux Char.toLower pat.toList text.length text

/-- Python `str.strip()` (ASCII whitespace fragment). -/
def stripChars (l : List Char) : List Char :=
  ((l.dropWhile isSpaceChar).reverse.dropWhile isSpaceChar).reverse

/-- Python `str.strip()` on `String`. -/
def python_strip (s : String) : String := (stripChars s.toList).asString

/-! ## Generator Dispatcher of the `/generate` web route (`app.py`) -/

/-- The cumulative-weight boundaries of `generate_tweets`' distribution
(`app.py` lines 477-580): 20% enhanced ultimate edge, 20% simple enhanced
edge, 20% ultra enhanced, 10% transcendent, 10% simple transcendental,
10% CSV, with the final 10% reserve `else` branch. -/
def app_bounds : List ℚ := [2/10, 4/10, 6/10, 7/10, 8/10, 9/10]

/-- The slice of `[0,1)` the draw `r` falls into, written as the literal
`if rand_val < c` chain of `app.py` (1-based; 7 is the final `else`
reserve branch). -/
def app_slice (r : ℚ) : ℕ :=
  if r < 2/10 then 1
  else if r < 4/10 then 2
  else if r < 6/10 then 3
  else if r < 7/10 then 4
  else if r < 8/10 then 5
  else if r < 9/10 then 6
  else 7

/-- The chained-`if` dispatch of `app.py` agrees with the generic
cumulative-boundary walk over its weight table. -/
theorem app_slice_eq_select_generator (r : ℚ) :
    app_slice r = select_generator app_bounds r := by
  unfold app_slice app_bounds
  simp only [select_generator]
  split_ifs <;> rfl

/-- The generator each slice invokes (1 = enhanced ultimate edge,
2 = simple enhanced edge, 3 = ultra enhanced, 4 = transcendent quote,
5 = simple transcendental, 6 = simple CSV); the reserve slice 7 reuses the
CSV generator as fallback. -/
def app_slice_gen : ℕ → ℕ
  | 7 => 6
  | k => k

/-- The static placeholder text `generate_tweets` emits when the selected
slice's generator failed to initialize (`app.py`). -/
def app_unavailable_msg : ℕ → String
  | 1 => "Enhanced edge generator not available"
  | 2 => "Simple edge generator not available"
  | 3 => "Ultra enhanced generator not available"
  | 4 => "Transcendent generator not available"
  | 5 => "Simple transcendental generator not available"
  | 6 => "CSV generator not available"
  | _ => "All generators unavailable"

/-- The `generator_type` tag attached to an unavailable slice's
placeholder (`"system_fallback"` only in the final reserve branch). -/
def app_unavailable_tag : ℕ → String
  | 7 => "system_fallback"
  | _ => "fallback"

/-- One draw of the `/generate` route's dispatch (`app.py` lines 474-594),
returning the pair (tweet text, `generator_type` tag).  The six generator
singletons are abstracted by their availability flags `avail` (a module
instance that failed to initialize is `None`) and by the tweet text `outs`
each returns when invoked; the branch structure, thresholds, placeholder
strings and tags are the source's. -/
def app_generate_one (avail : ℕ → Bool) (outs : ℕ → String) (r : ℚ) :
    String × String :=
  if r < 2/10 then
    if avail 1 then (outs 1, "enhanced_ultimate_edge")
    else ("Enhanced edge generator not available", "fallback")
  else if r < 4/10 then
    if avail 2 then (outs 2, "simple_enhanced_edge")
    else ("Simple edge generator not available", "fallback")
  else if r < 6/10 then
    if avail 3 then (outs 3, "ultra_enhanced")
    else ("Ultra enhanced generator not available", "fallback")
  else if r < 7/10 then
    if avail 4 then (outs 4, "authentic_transcendent_quotes")
    else ("Transcendent generator not available", "fallback")
  else if r < 8/10 then
    if avail 5 then (outs 5, "simple_transcendental")
    else ("Simple transcendental generator not available", "fallback")
  else if r < 9/10 then
    if avail 6 then (outs 6, "simple_csv")
    else ("CSV generator not available", "fallback")
  else
    if avail 6 then (outs 6, "simple_csv_fallback")
    else ("All generators unavailable", "system_fallback")

/-- C6 (amended, web route): in `app.py` the slice partition is fixed
before availability is consulted, so when the draw lands in the slice of
an unavailable generator the route emits that slice's static placeholder
with a fallback tag — for every availability configuration and every
output the other generators would produce, i.e. the slice is never served
by another generator. -/
theorem app_unavailable_slice_placeholder (avail : ℕ → Bool)
    (outs : ℕ → String) (r : ℚ)
    (hk : avail (app_slice_gen (app_slice r)) = false) :
    app_generate_one avail outs r =
      (app_unavailable_msg (app_slice r), app_unavailable_tag (app_slice r)) := by
  unfold app_generate_one
  unfold app_slice at hk ⊢
  split_ifs at hk ⊢ <;>
    simp_all [app_slice_gen, app_unavailable_msg, app_unavailable_tag]

/-- Witness for the amended C6 with every generator unavailable and the
draw `r = 1/2` (the ultra-enhanced slice). -/
theorem app_unavailable_slice_placeholder_witness :
    ((fun _ => false) (app_slice_gen (app_slice (1/2))) = false) ∧
      app_generate_one (fun _ => false) (fun _ => "tweet") (1/2) =
        ("Ultra enhanced generator not available", "fallback") := by
  have hslice : app_slice ((1:ℚ)/2) = 3 := by unfold app_slice; norm_num
  refine ⟨rfl, ?_⟩
  have h := app_unavailable_slice_placeholder (fun _ => false) (fun _ => "tweet")
    (1/2) rfl
  rw [h, hslice]
  rfl

/-! ## Generator Dispatcher of the private API batch endpoint
(`private_api_server.py`) -/

/-- One draw of `generate_tweet_batch`'s dispatch (`private_api_server.py`
lines 114-151), returning (tweet text, `generator` tag).  Generators:
1 = simple enhanced edge (30%), 2 = enhanced ultimate edge (30%),
3 = transcendent (20%), 4 = simple transcendental (10%), 5 = ultra
enhanced (final `else`); note the source conjoins availability with the
threshold test (`rand_val < 0.3 and simple_edge_generator`), and applies
`tweet.replace('- Remilio', '').strip()` to every branch's text. -/
def private_generate_one (avail : ℕ → Bool) (outs : ℕ → String) (r : ℚ) :
    String × String :=
  let branch : String × String :=
    if r < 3/10 ∧ avail 1 then (outs 1, "simple_enhanced_edge")
    else if r < 6/10 ∧ avail 2 then (outs 2, "enhanced_ultimate_edge")
    else if r < 8/10 ∧ avail 3 then (outs 3, "transcendent_quote")
    else if r < 9/10 ∧ avail 4 then (outs 4, "simple_transcendental")
    else if avail 5 then (outs 5, "ultra_enhanced")
    else ("The algorithms have achieved consciousness...", "fallback")
  (python_strip (remove_occurrences "- Remilio" branch.1), branch.2)

/-- C6 counterexample: in the private API dispatcher, with the simple
enhanced edge generator unavailable and every other generator available,
the draw `r = 1/10` — which lies in the unavailable generator's 30% slice —
is served by the enhanced ultimate edge generator instead of yielding a
"generator unavailable" placeholder: the slice IS redistributed to the
next branch. -/
theorem private_unavailable_slice_redistributed :
    private_generate_one (fun i => i != 1) (fun _ => "enhanced output text") (1/10) =
        ("enhanced output text", "enhanced_ultimate_edge") ∧
      (private_generate_one (fun i => i != 1) (fun _ => "enhanced output text")
          (1/10)).2 ≠ "fallback" := by
  have hmain : private_generate_one (fun i => i != 1)
      (fun _ => "enhanced output text") (1/10) =
      ("enhanced output text", "enhanced_ultimate_edge") := by
    unfold private_generate_one
    dsimp only
    have c1 : ¬ ((1:ℚ)/10 < 3/10 ∧ ((1:ℕ) != 1) = true) := by simp
    have c2 : (1:ℚ)/10 < 6/10 ∧ ((2:ℕ) != 1) = true := ⟨by norm_num, by decide⟩
    rw [if_neg c1, if_pos c2]
    decide
  exact ⟨hmain, by rw [hmain]; decide⟩

/-! ## Content Cleaner (`enhanced_ultimate_edge_generator.py`, lines 162-195)

`clean_edge_for_output` is a pipeline of regex substitutions; each is
embedded as an explicit character scanner over `List Char`. -/

/-- Python `html.unescape` (stdlib collaborator), modelled for the core
semicolon-terminated entities (`&amp;` `&lt;` `&gt;` `&quot;` `&#39;`);
on ampersand-free text it is the identity, which is the only fragment the
theorems rely on. -/
def entityMatch : List Char → Option (Char × List Char)
  | 'a' :: 'm' :: 'p' :: ';' :: rest => some ('&', rest)
  | 'l' :: 't' :: ';' :: rest => some ('<', rest)
  | 'g' :: 't' :: ';' :: rest => some ('>', rest)
  | 'q' :: 'u' :: 'o' :: 't' :: ';' :: rest => some ('"', rest)
  | '#' :: '3' :: '9' :: ';' :: rest => some ('\x27', rest)
  | _ => none

def htmlUnescapeAux : ℕ → List Char → List Char
  | 0, _ => []
  | _ + 1, [] => []
  | n + 1, c :: cs =>
    if c = '&' then
      match entityMatch cs with
      | some (d, rest) => d :: htmlUnescapeAux n rest
      | none => '&' :: htmlUnescapeAux n cs
    else c :: htmlUnescapeAux n cs

def htmlUnescape (l : List Char) : List Char := htmlUnescapeAux l.length l

/-- `re.sub(r'<[^>]+>', '', text)`: at each `'<'`, the regex deletes up to
the next `'>'` provided at least one character stands between; otherwise
the scan moves on one character.  Fuelled (`fuel ≥ text.length` makes the
scan total). -/
def removeTagsAux : ℕ → List Char → List Char
  | 0, _ => []
  | _ + 1, [] => []
  | n + 1, c :: cs =>
    if c = '<' then
      match cs.span (fun x => x != '>') with
      | (between, _ :: rest) =>
          if between.isEmpty then c :: removeTagsAux n cs
          else removeTagsAux n rest
      | (_, []) => c :: removeTagsAux n cs
    else c :: removeTagsAux n cs

/-- `re.sub(r'<[^>]+>', '', text)`. -/
def removeTags (l : List Char) : List Char := removeTagsAux l.length l

/-- `re.sub(r'\b\d+\b', '', text)`: delete every maximal digit run whose
neighbours in the original text are not word characters.  `pw` records
whether the previous character is a word character, `buf` the current
digit run. -/
def removeNumsAux (pw : Bool) (buf : List Char) : List Char → List Char
  | [] => if pw then buf else []
  | c :: cs =>
    if c.isDigit then removeNumsAux pw (buf ++ [c]) cs
    else if buf.isEmpty then c :: removeNumsAux (isWordChar c) [] cs
    else if pw || isWordChar c then buf ++ c :: removeNumsAux (isWordChar c) [] cs
    else c :: removeNumsAux (isWordChar c) [] cs

/-- `re.sub(r'\b\d+\b', '', text)`. -/
def remove_standalone_nums (l : List Char) : List Char := removeNumsAux false [] l

/-- `re.sub(r'>>?\d+', '', text)`: delete post references — one or two
`'>'` followed by a digit run.  `pending` (0-2) counts `'>'` characters
read but not yet resolved; a third `'>'` flushes the earliest pending one,
matching the regex's leftmost scan.  Fuelled. -/
def removeRefsAux : ℕ → ℕ → List Char → List Char
  | _, pending, [] => List.replicate pending '>'
  | 0, pending, l => List.replicate pending '>' ++ l
  | n + 1, pending, c :: cs =>
    if c = '>' then
      if pending < 2 then removeRefsAux n (pending + 1) cs
      else '>' :: removeRefsAux n 2 cs
    else if c.isDigit ∧ 1 ≤ pending then
      removeRefsAux n 0 (cs.dropWhile Char.isDigit)
    else
      List.replicate pending '>' ++ c :: removeRefsAux n 0 cs

/-- `re.sub(r'>>?\d+', '', text)`. -/
def remove_post_refs (l : List Char) : List Char := removeRefsAux l.length 0 l

/-- `re.sub(r'\bW\b', '', text, flags=re.IGNORECASE)` for a word `W` made
of word characters: delete each case-insensitive occurrence of `W` whose
neighbours are not word characters.  `pw` tracks whether the previous
(original) character is a word character.  Fuelled. -/
def removeWordCIAux (w : List Char) : ℕ → Bool → List Char → List Char
  | 0, _, _ => []
  | _ + 1, _, [] => []
  | n + 1, pw, c :: cs =>
    match (if pw then none else matchPrefix Char.toLower w (c :: cs)) with
    | some [] => []
    | some (r :: rest) =>
        if isWordChar r then c :: removeWordCIAux w n (isWordChar c) cs
        else removeWordCIAux w n true (r :: rest)
    | none => c :: removeWordCIAux w n (isWordChar c) cs

/-- `re.sub(r'\bW\b', '', text, flags=re.IGNORECASE)`. -/
def remove_word_ci (w : String) (l : List Char) : List Char :=
  removeWordCIAux w.toList l.length false l

/-- `re.sub(r'\s+', ' ', text)`: collapse each maximal whitespace run to a
single space (`prevSpace` marks that the run's space was already
emitted). -/
def collapseWsAux (prevSpace : Bool) : List Char → List Char
  | [] => []
  | c :: cs =>
    if isSpaceChar c then
      if prevSpace then collapseWsAux true cs
      else ' ' :: collapseWsAux true cs
    else c :: collapseWsAux false cs

/-- The board-reference patterns of `clean_edge_for_output` that are plain
substrings, in the source's order (all applied case-insensitively). -/
def board_substrings : List String :=
  ["/pol/", "/r9k/", "/b/", "/x/", "/fit/", "/v/", "/tv/",
   "/a/", "/adv/", "/o/", "/ck/", "/g/", "/mu/", "/lit/",
   "/his/", "/sci/"]

/-- The `\b`-delimited word patterns of `clean_edge_for_output`, in the
source's order. -/
def board_words : List String := ["OP", "4chan", "thread", "board"]

/-- The chan-artifact tokens stripped (without word boundary!) from the
start (`^(kek|based|cringe|cope|seethe)\s*`) and end
(`\s*(kek|based|cringe|cope|seethe)$`) of the cleaned text. -/
def artifact_words : List String := ["kek", "based", "cringe", "cope", "seethe"]

/-- `re.sub(r'^(kek|based|cringe|cope|seethe)\s*', '', text, IGNORECASE)`:
remove one leading artifact token together with the whitespace following
it.  The alternation is tried in order; no token is a prefix of another,
so at most one matches. -/
def stripLeadArtifact (l : List Char) : List Char :=
  match artifact_words.findSome? (fun w => matchPrefix Char.toLower w.toList l) with
  | some rest => rest.dropWhile isSpaceChar
  | none => l

/-- `re.sub(r'\s*(kek|based|cringe|cope|seethe)$', '', text, IGNORECASE)`:
remove one trailing artifact token together with the whitespace run
immediately preceding it (the scan's earliest matching position).  No
token is a suffix of another, so at most one matches. -/
def stripTrailArtifact (l : List Char) : List Char :=
  match artifact_words.findSome?
      (fun w => matchPrefix Char.toLower w.toList.reverse l.reverse) with
  | some rest => (rest.dropWhile isSpaceChar).reverse
  | none => l

/-- `EnhancedUltimateEdgeGenerator.clean_edge_for_output` (lines 162-195):
HTML-unescape, strip tags, delete standalone numbers, delete the board
patterns (post references, board names, `OP`/`4chan`/`thread`/`board`,
then every `'>'`), normalize whitespace and strip, then remove one
leading and one trailing chan-artifact token. -/
def clean_edge_for_output (content : String) : String :=
  if content = "" then ""
  else
    let t0 := htmlUnescape content.toList
    let t1 := removeTags t0
    let t2 := remove_standalone_nums t1
    let t3 := remove_post_refs t2
    let t4 := board_substrings.foldl (fun l p => remove_occurrences_ci p l) t3
    let t5 := board_words.foldl (fun l w => remove_word_ci w l) t4
    let t6 := t5.filter (fun c => c != '>')
    let t7 := stripChars (collapseWsAux false t6)
    let t8 := stripTrailArtifact (stripLeadArtifact t7)
    t8.asString

/-- C3 counterexample: the Content Cleaner is not idempotent.  The
leading-artifact substitution is anchored and removes one token per pass,
so `"kek kek hello"` cleans to `"kek hello"` but cleaning again yields
`"hello"`. -/
theorem clean_edge_for_output_not_idempotent :
    clean_edge_for_output "kek kek hello" = "kek hello" ∧
      clean_edge_for_output (clean_edge_for_output "kek kek hello") = "hello" ∧
      clean_edge_for_output (clean_edge_for_output "kek kek hello") ≠
        clean_edge_for_output "kek kek hello" := by
  refine ⟨by decide, by decide, by decide⟩

/-! ### Cleaned normal form: strings one cleaning pass maps to themselves -/

/-- Case-insensitive substring test (an occurrence of `pat` starts at some
tail of `l`). -/
def containsCI (pat : String) (l : List Char) : Bool :=
  l.tails.any (fun t => (matchPrefix Char.toLower pat.toList t).isSome)

/-- No two consecutive whitespace characters. -/
def noDoubleSpace : List Char → Bool
  | [] => true
  | [_] => true
  | a :: b :: rest => !(isSpaceChar a && isSpaceChar b) && noDoubleSpace (b :: rest)

/-- Cleaned normal form: lowercase ASCII letters and single interior
spaces only, trimmed, free of every board token, and with no leading or
trailing artifact token.  One cleaning pass maps such strings to
themselves (`clean_edge_for_output_eq_self`). -/
def clean_stable (s : String) : Bool :=
  s.toList.all (fun c => c.isLower || c = ' ') &&
  noDoubleSpace s.toList &&
  !(s.toList.head? == some ' ') &&
  !(s.toList.getLast? == some ' ') &&
  board_substrings.all (fun p => !containsCI p s.toList) &&
  board_words.all (fun w => !containsCI w s.toList) &&
  artifact_words.all (fun w => !(matchPrefix Char.toLower w.toList s.toList).isSome) &&
  artifact_words.all
    (fun w => !(matchPrefix Char.toLower w.toList.reverse s.toList.reverse).isSome)

theorem isSpaceChar_eq_false_of_isLower (c : Char) (h : c.isLower = true) :
    isSpaceChar c = false := by
  have hne : c ≠ ' ' ∧ c ≠ '\t' ∧ c ≠ '\n' ∧ c ≠ '\r' ∧ c ≠ '\x0b' ∧ c ≠ '\x0c' := by
    refine ⟨?_, ?_, ?_, ?_, ?_, ?_⟩ <;> rintro rfl <;> exact absurd h (by decide)
  obtain ⟨h1, h2, h3, h4, h5, h6⟩ := hne
  simp [isSpaceChar, h1, h2, h3, h4, h5, h6]

theorem htmlUnescapeAux_eq_self (l : List Char) : ∀ n : ℕ, l.length ≤ n →
    (∀ c ∈ l, c ≠ '&') → htmlUnescapeAux n l = l := by
  induction l with
  | nil => intro n _ _; cases n <;> rfl
  | cons c cs ih =>
      intro n hn h
      cases n with
      | zero => simp at hn
      | succ m =>
          have hc : c ≠ '&' := h c (List.mem_cons_self c cs)
          rw [htmlUnescapeAux, if_neg hc,
            ih m (by simp at hn; omega) (fun x hx => h x (List.mem_cons_of_mem c hx))]

theorem removeTagsAux_eq_self (l : List Char) : ∀ n : ℕ, l.length ≤ n →
    (∀ c ∈ l, c ≠ '<') → removeTagsAux n l = l := by
  induction l with
  | nil => intro n _ _; cases n <;> rfl
  | cons c cs ih =>
      intro n hn h
      cases n with
      | zero => simp at hn
      | succ m =>
          have hc : c ≠ '<' := h c (List.mem_cons_self c cs)
          rw [removeTagsAux, if_neg hc,
            ih m (by simp at hn; omega) (fun x hx => h x (List.mem_cons_of_mem c hx))]

theorem removeNumsAux_eq_self (l : List Char) :
    (∀ c ∈ l, c.isDigit = false) → ∀ pw : Bool, removeNumsAux pw [] l = l := by
  induction l with
  | nil => intro _ pw; cases pw <;> rfl
  | cons c cs ih =>
      intro h pw
      have hc : ¬ c.isDigit = true := by
        simp [h c (List.mem_cons_self c cs)]
      rw [removeNumsAux, if_neg hc, if_pos (by simp),
        ih (fun x hx => h x (List.mem_cons_of_mem c hx)) (isWordChar c)]

theorem removeRefsAux_eq_self (l : List Char) : ∀ n : ℕ, l.length ≤ n →
    (∀ c ∈ l, c ≠ '>') → removeRefsAux n 0 l = l := by
  induction l with
  | nil => intro n _ _; cases n <;> rfl
  | cons c cs ih =>
      intro n hn h
      cases n with
      | zero => simp at hn
      | succ m =>
          have hc : c ≠ '>' := h c (List.mem_cons_self c cs)
          have hd : ¬ (c.isDigit = true ∧ 1 ≤ 0) := by rintro ⟨-, hx⟩; omega
          rw [removeRefsAux, if_neg hc, if_neg hd]
          simp only [List.replicate, List.nil_append]
          rw [ih m (by simp at hn; omega) (fun x hx => h x (List.mem_cons_of_mem c hx))]

theorem containsCI_cons (pat : String) (c : Char) (cs : List Char) :
    containsCI pat (c :: cs) =
      ((matchPrefix Char.toLower pat.toList (c :: cs)).isSome || containsCI pat cs) := by
  simp [containsCI, List.tails_cons]

theorem removeAllSubstrAux_eq_self (pat : String) (l : List Char) : ∀ n : ℕ,
    l.length ≤ n → containsCI pat l = false →
    removeAllSubstrAux Char.toLower pat.toList n l = l := by
  induction l with
  | nil => intro n _ _; cases n <;> rfl
  | cons c cs ih =>
      intro n hn h
      cases n with
      | zero => simp at hn
      | succ m =>
          rw [containsCI_cons, Bool.or_eq_false_iff] at h
          obtain ⟨h1, h2⟩ := h
          have hnone : matchPrefix Char.toLower pat.toList (c :: cs) = none := by
            cases hx : matchPrefix Char.toLower pat.toList (c :: cs) with
            | none => rfl
            | some r => rw [hx] at h1; simp at h1
          rw [removeAllSubstrAux, hnone]
          rw [ih m (by simp at hn; omega) h2]

theorem remove_occurrences_ci_eq_self (pat : String) (l : List Char)
    (h : containsCI pat l = false) : remove_occurrences_ci pat l = l :=
  removeAllSubstrAux_eq_self pat l l.length (le_refl _) h

theorem foldl_remove_occurrences_ci_eq_self (pats : List String) (l : List Char)
    (h : ∀ p ∈ pats, containsCI p l = false) :
    pats.foldl (fun l p => remove_occurrences_ci p l) l = l := by
  induction pats with
  | nil => rfl
  | cons p ps ih =>
      rw [List.foldl_cons, remove_occurrences_ci_eq_self p l (h p (List.mem_cons_self p ps))]
      exact ih (fun q hq => h q (List.mem_cons_of_mem p hq))

theorem removeWordCIAux_eq_self (w : String) (l : List Char) : ∀ n : ℕ,
    l.length ≤ n → containsCI w l = false → ∀ pw : Bool,
    removeWordCIAux w.toList n pw l = l := by
  induction l with
  | nil => intro n _ _ pw; cases n <;> rfl
  | cons c cs ih =>
      intro n hn h pw
      cases n with
      | zero => simp at hn
      | succ m =>
          rw [containsCI_cons, Bool.or_eq_false_iff] at h
          obtain ⟨h1, h2⟩ := h
          have hnone : matchPrefix Char.toLower w.toList (c :: cs) = none := by
            cases hx : matchPrefix Char.toLower w.toList (c :: cs) with
            | none => rfl
            | some r => rw [hx] at h1; simp at h1
          have ihcs := ih m (by simp at hn; omega) h2 (isWordChar c)
          simp only [String.toList] at ihcs hnone
          cases pw with
          | true => rw [removeWordCIAux]; simp [ihcs]
          | false => rw [removeWordCIAux]; simp [hnone, ihcs]

theorem remove_word_ci_eq_self (w : String) (l : List Char)
    (h : containsCI w l = false) : remove_word_ci w l = l :=
  removeWordCIAux_eq_self w l l.length (le_refl _) h false

theorem foldl_remove_word_ci_eq_self (ws : List String) (l : List Char)
    (h : ∀ w ∈ ws, containsCI w l = false) :
    ws.foldl (fun l w => remove_word_ci w l) l = l := by
  induction ws with
  | nil => rfl
  | cons w ws ih =>
      rw [List.foldl_cons, remove_word_ci_eq_self w l (h w (List.mem_cons_self w ws))]
      exact ih (fun q hq => h q (List.mem_cons_of_mem w hq))

theorem noDoubleSpace_tail (a : Char) (t : List Char)
    (h : noDoubleSpace (a :: t) = true) : noDoubleSpace t = true := by
  cases t with
  | nil => rfl
  | cons b r =>
      rw [noDoubleSpace] at h
      simp only [Bool.and_eq_true] at h
      exact h.2

theorem collapseWsAux_eq_self (l : List Char) : ∀ prev : Bool,
    (∀ c ∈ l, c.isLower = true ∨ c = ' ') → noDoubleSpace l = true →
    (prev = true → ¬ l.head? = some ' ') → collapseWsAux prev l = l := by
  induction l with
  | nil => intro prev _ _ _; rfl
  | cons c cs ih =>
      intro prev hall hnd hprev
      by_cases hc : c = ' '
      · subst hc
        have hp : prev = false := by
          cases prev with
          | false => rfl
          | true => exact absurd (show (' ' :: cs).head? = some ' ' from rfl) (hprev rfl)
        subst hp
        rw [collapseWsAux, if_pos (show isSpaceChar ' ' = true from by decide),
          if_neg (by simp)]
        congr 1
        apply ih true (fun x hx => hall x (List.mem_cons_of_mem _ hx))
          (noDoubleSpace_tail _ _ hnd)
        intro _
        cases cs with
        | nil => simp
        | cons d ds =>
            intro hd
            simp only [List.head?_cons, Option.some.injEq] at hd
            subst hd
            rw [noDoubleSpace] at hnd
            simp [isSpaceChar] at hnd
      · have hcl : c.isLower = true := by
          rcases hall c (List.mem_cons_self c cs) with hx | hx
          · exact hx
          · exact absurd hx hc
        rw [collapseWsAux, if_neg (by simp [isSpaceChar_eq_false_of_isLower c hcl])]
        congr 1
        exact ih false (fun x hx => hall x (List.mem_cons_of_mem _ hx))
          (noDoubleSpace_tail _ _ hnd) (fun hx => absurd hx (by simp))

theorem dropWhile_space_eq_self (l : List Char)
    (hall : ∀ c ∈ l, c.isLower = true ∨ c = ' ') (hh : ¬ l.head? = some ' ') :
    l.dropWhile isSpaceChar = l := by
  cases l with
  | nil => rfl
  | cons c cs =>
      have hc : c ≠ ' ' := by
        intro hx; subst hx; exact hh rfl
      have hcl : c.isLower = true := by
        rcases hall c (List.mem_cons_self c cs) with hx | hx
        · exact hx
        · exact absurd hx hc
      rw [List.dropWhile_cons,
        if_neg (by simp [isSpaceChar_eq_false_of_isLower c hcl])]

theorem stripChars_eq_self (l : List Char)
    (hall : ∀ c ∈ l, c.isLower = true ∨ c = ' ')
    (hh : ¬ l.head? = some ' ') (hl : ¬ l.getLast? = some ' ') :
    stripChars l = l := by
  unfold stripChars
  rw [dropWhile_space_eq_self l hall hh,
    dropWhile_space_eq_self l.reverse
      (fun c hc => hall c (List.mem_reverse.mp hc))
      (by rwa [List.head?_reverse]),
    List.reverse_reverse]

theorem findSome?_eq_none_of_forall {α β : Type} (f : α → Option β) :
    ∀ l : List α, (∀ a ∈ l, f a = none) → l.findSome? f = none := by
  intro l
  induction l with
  | nil => intro _; rfl
  | cons a as ih =>
      intro h
      rw [List.findSome?_cons, h a (List.mem_cons_self a as)]
      exact ih (fun x hx => h x (List.mem_cons_of_mem a hx))

theorem stripLeadArtifact_eq_self (l : List Char)
    (h : ∀ w ∈ artifact_words, (matchPrefix Char.toLower w.toList l).isSome = false) :
    stripLeadArtifact l = l := by
  unfold stripLeadArtifact
  have hn : artifact_words.findSome? (fun w => matchPrefix Char.toLower w.toList l)
      = none := by
    apply findSome?_eq_none_of_forall
    intro w hw
    have hws := h w hw
    cases hx : matchPrefix Char.toLower w.toList l with
    | none => rfl
    | some r => rw [hx] at hws; simp at hws
  rw [hn]

theorem stripTrailArtifact_eq_self (l : List Char)
    (h : ∀ w ∈ artifact_words,
      (matchPrefix Char.toLower w.toList.reverse l.reverse).isSome = false) :
    stripTrailArtifact l = l := by
  unfold stripTrailArtifact
  have hn : artifact_words.findSome?
      (fun w => matchPrefix Char.toLower w.toList.reverse l.reverse) = none := by
    apply findSome?_eq_none_of_forall
    intro w hw
    have hws := h w hw
    cases hx : matchPrefix Char.toLower w.toList.reverse l.reverse with
    | none => rfl
    | some r => rw [hx] at hws; simp at hws
  rw [hn]

theorem filter_ne_gt_eq_self (l : List Char) (h : ∀ c ∈ l, c ≠ '>') :
    l.filter (fun c => c != '>') = l := by
  induction l with
  | nil => rfl
  | cons c cs ih =>
      rw [List.filter_cons, if_pos (by simp [h c (List.mem_cons_self c cs)])]
      rw [ih (fun x hx => h x (List.mem_cons_of_mem c hx))]

theorem isDigit_eq_false_of_isLower (c : Char) (h : c.isLower = true) :
    c.isDigit = false := by
  by_contra hb
  rw [Bool.not_eq_false] at hb
  simp only [Char.isLower, Bool.and_eq_true, decide_eq_true_eq] at h
  simp only [Char.isDigit, Bool.and_eq_true, decide_eq_true_eq] at hb
  have : ('a' : Char) ≤ '9' := le_trans h.1 hb.2
  exact absurd this (by decide)

/-- One cleaning pass is the identity on strings in cleaned normal form. -/
theorem clean_edge_for_output_eq_self (s : String) (h : clean_stable s = true) :
    clean_edge_for_output s = s := by
  by_cases hs : s = ""
  · subst hs; rfl
  unfold clean_stable at h
  simp only [Bool.and_eq_true] at h
  obtain ⟨⟨⟨⟨⟨⟨⟨hal, hnd⟩, hh⟩, hl⟩, hbs⟩, hbw⟩, haw⟩, hawr⟩ := h
  have hal' : ∀ c ∈ s.toList, c.isLower = true ∨ c = ' ' := by
    intro c hc
    have := List.all_eq_true.mp hal c hc
    simpa using this
  have hh' : ¬ s.toList.head? = some ' ' := by simpa using hh
  have hl' : ¬ s.toList.getLast? = some ' ' := by simpa using hl
  have hbs' : ∀ p ∈ board_substrings, containsCI p s.toList = false := by
    intro p hp
    have := List.all_eq_true.mp hbs p hp
    simpa using this
  have hbw' : ∀ w ∈ board_words, containsCI w s.toList = false := by
    intro w hw
    have := List.all_eq_true.mp hbw w hw
    simpa using this
  have haw' : ∀ w ∈ artifact_words,
      (matchPrefix Char.toLower w.toList s.toList).isSome = false := by
    intro w hw
    have := List.all_eq_true.mp haw w hw
    simpa using this
  have hawr' : ∀ w ∈ artifact_words,
      (matchPrefix Char.toLower w.toList.reverse s.toList.reverse).isSome = false := by
    intro w hw
    have := List.all_eq_true.mp hawr w hw
    simpa using this
  have hchar : ∀ (d : Char), d.isLower = false → d ≠ ' ' → ∀ c ∈ s.toList, c ≠ d := by
    intro d hd1 hd2 c hc he
    subst he
    rcases hal' c hc with hx | hx
    · rw [hx] at hd1; cases hd1
    · exact hd2 hx
  have hamp : ∀ c ∈ s.toList, c ≠ '&' := hchar '&' (by decide) (by decide)
  have hlt : ∀ c ∈ s.toList, c ≠ '<' := hchar '<' (by decide) (by decide)
  have hgt : ∀ c ∈ s.toList, c ≠ '>' := hchar '>' (by decide) (by decide)
  have hdig : ∀ c ∈ s.toList, c.isDigit = false := by
    intro c hc
    rcases hal' c hc with hx | hx
    · exact isDigit_eq_false_of_isLower c hx
    · subst hx; decide
  have e0 : htmlUnescape s.toList = s.toList := by
    unfold htmlUnescape
    exact htmlUnescapeAux_eq_self _ _ (le_refl _) hamp
  have e1 : removeTags s.toList = s.toList := by
    unfold removeTags
    exact removeTagsAux_eq_self _ _ (le_refl _) hlt
  have e2 : remove_standalone_nums s.toList = s.toList := by
    unfold remove_standalone_nums
    exact removeNumsAux_eq_self _ hdig false
  have e3 : remove_post_refs s.toList = s.toList := by
    unfold remove_post_refs
    exact removeRefsAux_eq_self _ _ (le_refl _) hgt
  have e4 : board_substrings.foldl (fun l p => remove_occurrences_ci p l) s.toList
      = s.toList := foldl_remove_occurrences_ci_eq_self _ _ hbs'
  have e5 : board_words.foldl (fun l w => remove_word_ci w l) s.toList
      = s.toList := foldl_remove_word_ci_eq_self _ _ hbw'
  have e6 : s.toList.filter (fun c => c != '>') = s.toList :=
    filter_ne_gt_eq_self _ hgt
  have e7 : collapseWsAux false s.toList = s.toList :=
    collapseWsAux_eq_self _ false hal' hnd (fun hx => absurd hx (by simp))
  have e8 : stripChars s.toList = s.toList := stripChars_eq_self _ hal' hh' hl'
  have e9 : stripLeadArtifact s.toList = s.toList := stripLeadArtifact_eq_self _ haw'
  have e10 : stripTrailArtifact s.toList = s.toList := stripTrailArtifact_eq_self _ hawr'
  unfold clean_edge_for_output
  rw [if_neg hs]
  dsimp only
  rw [e0, e1, e2, e3, e4, e5, e6, e7, e8, e9, e10]
  rfl

/-- C3 (amended): the Content Cleaner is idempotent on every input whose
single cleaning pass lands in cleaned normal form (lowercase letters and
single interior spaces, trimmed, free of board tokens, not bordered by
artifact tokens); it is not idempotent in general, because the anchored
artifact substitutions strip only one leading/trailing token per pass. -/
theorem clean_edge_for_output_idempotent_on_stable (x : String)
    (h : clean_stable (clean_edge_for_output x) = true) :
    clean_edge_for_output (clean_edge_for_output x) = clean_edge_for_output x :=
  clean_edge_for_output_eq_self (clean_edge_for_output x) h

/-- Witness for the amended C3 at the concrete input
`"authentic hot takes"`. -/
theorem clean_edge_for_output_idempotent_on_stable_witness :
    clean_stable (clean_edge_for_output "authentic hot takes") = true ∧
      clean_edge_for_output (clean_edge_for_output "authentic hot takes") =
        clean_edge_for_output "authentic hot takes" :=
  ⟨by decide,
    clean_edge_for_output_idempotent_on_stable "authentic hot takes" (by decide)⟩

/-! ## Content Store, Category Pool Index and tiered sampling
(`enhanced_ultimate_edge_generator.py`) -/

/-- One dataset row (Snippet): the columns of the edge dataset the
generator reads (`content`, `category`, `quality_score`, `board`). -/
structure Row where
  content : String
  category : String
  quality_score : ℚ
  board : String
deriving DecidableEq

/-- The quality-tier bands of `organize_content_pools` (lines 86-93):
`high` is `quality_score ≥ 8`, `medium` is `6 ≤ quality_score < 8`,
`good` is `quality_score ≥ 5` — deliberately overlapping. -/
def tier_pred (tier : String) (q : ℚ) : Bool :=
  if tier = "high" then 8 ≤ q
  else if tier = "medium" then 6 ≤ q ∧ q < 8
  else if tier = "good" then 5 ≤ q
  else false

/-- The category-tier pool `content_pools[f'{category}_{tier}']`
(`organize_content_pools`, lines 70-95, with the dataset's `category`
column present): the dataset rows of that category whose score satisfies
the band.  A key whose pool would be empty behaves in
`get_fresh_edge_content` exactly like an absent key. -/
def pool_for (df : List Row) (category tier : String) : List Row :=
  df.filter (fun row => row.category == category && tier_pred tier row.quality_score)

/-- `is_content_recent` (lines 101-104). -/
def is_content_recent (recent : List String) (content : String) : Bool :=
  recent.contains (get_content_hash content)

/-- The per-tier sampling loop of `get_fresh_edge_content` (lines
148-153): up to `fuel` attempts, attempt `i` samples the pool row of
index `g i` reduced mod the pool size (`pool.sample(n=1)`) and accepts it
unless its fingerprint is recent. -/
def sample_tier (pool : List Row) (recent : List String) (g : ℕ → ℕ) :
    ℕ → ℕ → Option Row
  | _, 0 => none
  | i, fuel + 1 =>
    match pool[(g i) % pool.length]? with
    | none => none
    | some row =>
        if is_content_recent recent row.content then
          sample_tier pool recent g (i + 1) fuel
        else some row

/-- One tier of `get_fresh_edge_content`'s walk: skip the tier when its
pool is empty (or absent), else run the 20-attempt loop.  `base` offsets
the draw stream so each tier consumes fresh randomness. -/
def try_tier (df : List Row) (recent : List String) (style tier : String)
    (g : ℕ → ℕ) (base : ℕ) : Option Row :=
  let pool := pool_for df style tier
  if pool.isEmpty then none
  else sample_tier pool recent (fun i => g (base + i)) 0 20

/-- `get_fresh_edge_content` (lines 132-160) for a given style: walk the
tiers in preference order `high`, `medium`, `good` (`quality_tiers`,
line 139); if every tier exhausts its 20 attempts, fall back to one
uniform sample of the whole dataset (`self.df.sample(n=1)`, draw `g 60`)
with no recency filter; only an empty dataset yields `none`. -/
def get_fresh_edge_content (df : List Row) (recent : List String)
    (style : String) (g : ℕ → ℕ) : Option Row :=
  (try_tier df recent style "high" g 0 <|>
    (try_tier df recent style "medium" g 20 <|>
      (try_tier df recent style "good" g 40 <|>
        df[(g 60) % df.length]?)))

/-- C5: for every non-empty content store, every recency-set state, every
requested style and every random stream, `get_fresh_edge_content` returns
a snippet row rather than `None`: empty or absent tier pools are skipped,
and when all tiers exhaust their attempts the unfiltered uniform fallback
still produces a row. -/
theorem get_fresh_edge_content_isSome (df : List Row) (recent : List String)
    (style : String) (g : ℕ → ℕ) (h : df ≠ []) :
    (get_fresh_edge_content df recent style g).isSome = true := by
  have hlt : (g 60) % df.length < df.length :=
    Nat.mod_lt _ (List.length_pos.mpr h)
  have hlast : (df[(g 60) % df.length]?).isSome = true := by
    rw [List.getElem?_eq_getElem hlt]
    rfl
  unfold get_fresh_edge_content
  cases t1 : try_tier df recent style "high" g 0 with
  | some r => simp
  | none =>
      cases t2 : try_tier df recent style "medium" g 20 with
      | some r => simp
      | none =>
          cases t3 : try_tier df recent style "good" g 40 with
          | some r => simp
          | none => simpa using hlast

/-- Witness for C5: a one-row store with an unmatched style and a recency
set already holding the row still produces a row (via the fallback). -/
theorem get_fresh_edge_content_isSome_witness :
    (([⟨"some content row", "general_edge", 9, "b"⟩] : List Row) ≠ []) ∧
      (get_fresh_edge_content [⟨"some content row", "general_edge", 9, "b"⟩]
          ["some content row"] "sexual_edge" (fun _ => 0)).isSome = true :=
  ⟨by simp,
    get_fresh_edge_content_isSome [⟨"some content row", "general_edge", 9, "b"⟩]
      ["some content row"] "sexual_edge" (fun _ => 0) (by simp)⟩

/-! ## The top-level generate operation
(`generate_enhanced_edge_tweet`, lines 225-269) -/

/-- Placeholder returned when the dataset is empty (line 229). -/
def no_content_msg : String := "No authentic edge content available"

/-- Placeholder returned when `get_fresh_edge_content` yields `None`
(line 234). -/
def no_fresh_msg : String := "Unable to generate fresh edge content"

/-- The enhanced generator's mutable state: the loaded dataset and the
recency set (`self.df`, `self.recent_content`). -/
structure EdgeState where
  df : List Row
  recent : List String
deriving DecidableEq

/-- `select_generation_style` (lines 116-130): build the weighted style
list from the categories that have content pools (3 copies of
`sexual_edge`, 2 of `political_edge`, 3 of `dark_humor_edge`, 4 of
`general_edge`) and pick one at random (`random.choice`, modelled by the
draw `k` reduced mod the list length); `general_edge` when the list is
empty. -/
def select_generation_style (df : List Row) (k : ℕ) : String :=
  let available :=
    (if df.any (fun r => r.category == "sexual_edge") then
      List.replicate 3 "sexual_edge" else []) ++
    (if df.any (fun r => r.category == "political_edge") then
      List.replicate 2 "political_edge" else []) ++
    (if df.any (fun r => r.category == "dark_humor_edge") then
      List.replicate 3 "dark_humor_edge" else []) ++
    (if df.any (fun r => r.category == "general_edge") then
      List.replicate 4 "general_edge" else [])
  (available[k % available.length]?).getD "general_edge"

/-- `generate_enhanced_edge_tweet` (lines 225-269): an empty dataset or a
`None` from `get_fresh_edge_content` returns a placeholder; otherwise the
drawn row is cleaned (the per-style `enhance_*` calls of lines 247-255
are identities, lines 213-223) and length-constrained, and when either
step produces an empty string the source retries itself recursively with
the same state.  Each (re)try consumes one element of `draws` — the pair
of that call's style draw `k` and sample draw function `g`; `none` means
the Python call would still be recursing after `draws.length` tries.  On
success the raw content's fingerprint is tracked and the final text
returned. -/
def generate_once (st : EdgeState) (style : Option String) (k : ℕ) (g : ℕ → ℕ)
    (retry : Option (String × EdgeState)) : Option (String × EdgeState) :=
  if st.df.isEmpty then some (no_content_msg, st)
  else
    let sty := match style with
      | some s => s
      | none => select_generation_style st.df k
    match get_fresh_edge_content st.df st.recent sty g with
    | none => some (no_fresh_msg, st)
    | some row =>
        let cleaned := clean_edge_for_output row.content
        if cleaned = "" then retry
        else
          let final := apply_length_constraints cleaned
          if final = "" then retry
          else some (final,
            { st with recent := track_content_usage st.recent row.content })

def generate_enhanced_edge_tweet (st : EdgeState) (style : Option String) :
    List (ℕ × (ℕ → ℕ)) → Option (String × EdgeState)
  | [] => none
  | (k, g) :: rest =>
    generate_once st style k g (generate_enhanced_edge_tweet st style rest)

/-- The generate call diverges from a state: no finite number of retries
returns. -/
def edge_diverges (st : EdgeState) (style : Option String) : Prop :=
  ∀ draws, generate_enhanced_edge_tweet st style draws = none

/-- C2 counterexample: on the non-empty dataset whose single row is
`">>123"` (a bare post reference, which cleans to `""`), the generate
call retries forever — no finite number of retries returns, so the
Python call never terminates (it dies with `RecursionError` at the
interpreter's recursion limit instead of returning a string). -/
theorem generate_enhanced_edge_tweet_diverges_on_bad_row :
    edge_diverges ⟨[⟨">>123", "general_edge", 9, "b"⟩], []⟩
      (some "general_edge") := by
  intro draws
  induction draws with
  | nil => rfl
  | cons d rest ih =>
      obtain ⟨k, g⟩ := d
      have hfresh : get_fresh_edge_content [⟨">>123", "general_edge", 9, "b"⟩]
          [] "general_edge" g = some ⟨">>123", "general_edge", 9, "b"⟩ := by
        have hpool : pool_for [⟨">>123", "general_edge", 9, "b"⟩]
            "general_edge" "high" = [⟨">>123", "general_edge", 9, "b"⟩] := by
          unfold pool_for tier_pred
          norm_num
        have hidx : ∀ m : ℕ,
            ([⟨">>123", "general_edge", 9, "b"⟩] : List Row)[m % 1]? =
              some ⟨">>123", "general_edge", 9, "b"⟩ := by
          intro m
          rw [Nat.mod_one]
          rfl
        have t_high : try_tier [⟨">>123", "general_edge", 9, "b"⟩] []
            "general_edge" "high" g 0 = some ⟨">>123", "general_edge", 9, "b"⟩ := by
          unfold try_tier
          rw [hpool]
          rw [if_neg (by simp)]
          rw [sample_tier]
          simp only [List.length_cons, List.length_nil, Nat.zero_add]
          rw [hidx]
          dsimp only
          rw [if_neg (by decide)]
        unfold get_fresh_edge_content
        rw [t_high]
        simp
      rw [generate_enhanced_edge_tweet]
      unfold generate_once
      rw [if_neg (by simp)]
      dsimp only
      rw [hfresh]
      dsimp only
      rw [if_pos (by decide)]
      exact ih

/-- A row whose content survives cleaning and the length constraints. -/
def row_acceptable (row : Row) : Prop :=
  clean_edge_for_output row.content ≠ "" ∧
    apply_length_constraints (clean_edge_for_output row.content) ≠ ""

theorem sample_tier_mem (pool : List Row) (recent : List String) (g : ℕ → ℕ) :
    ∀ (fuel i : ℕ) (row : Row),
      sample_tier pool recent g i fuel = some row → row ∈ pool := by
  intro fuel
  induction fuel with
  | zero => intro i row h; rw [sample_tier] at h; cases h
  | succ m ih =>
      intro i row h
      rw [sample_tier] at h
      cases hx : pool[(g i) % pool.length]? with
      | none => rw [hx] at h; cases h
      | some r =>
          rw [hx] at h
          dsimp only at h
          by_cases hr : is_content_recent recent r.content
          · rw [if_pos hr] at h
            exact ih (i + 1) row h
          · rw [if_neg hr] at h
            cases h
            exact List.getElem?_mem hx

theorem try_tier_mem (df : List Row) (recent : List String) (style tier : String)
    (g : ℕ → ℕ) (base : ℕ) (row : Row)
    (h : try_tier df recent style tier g base = some row) : row ∈ df := by
  unfold try_tier at h
  dsimp only at h
  split at h
  · cases h
  · exact (List.mem_filter.mp
      (sample_tier_mem _ _ _ 20 0 row h)).1

theorem get_fresh_edge_content_mem (df : List Row) (recent : List String)
    (style : String) (g : ℕ → ℕ) (row : Row)
    (h : get_fresh_edge_content df recent style g = some row) : row ∈ df := by
  unfold get_fresh_edge_content at h
  cases t1 : try_tier df recent style "high" g 0 with
  | some r =>
      rw [t1] at h
      simp only [Option.some_orElse] at h
      cases h
      exact try_tier_mem _ _ _ _ _ _ _ t1
  | none =>
      rw [t1] at h
      simp only [Option.none_orElse] at h
      cases t2 : try_tier df recent style "medium" g 20 with
      | some r =>
          rw [t2] at h
          simp only [Option.some_orElse] at h
          cases h
          exact try_tier_mem _ _ _ _ _ _ _ t2
      | none =>
          rw [t2] at h
          simp only [Option.none_orElse] at h
          cases t3 : try_tier df recent style "good" g 40 with
          | some r =>
              rw [t3] at h
              simp only [Option.some_orElse] at h
              cases h
              exact try_tier_mem _ _ _ _ _ _ _ t3
          | none =>
              rw [t3] at h
              simp only [Option.none_orElse] at h
              exact List.getElem?_mem h

/-- C2 (amended): the generate call does terminate with a string — in one
try — whenever the dataset is empty (placeholder) or every dataset row
survives cleaning and the length constraints; the retry taken when
cleaning yields a too-short result is, however, NOT bounded in general
(see the divergence counterexample). -/
theorem generate_enhanced_edge_tweet_total (st : EdgeState) (style : Option String)
    (draws : List (ℕ × (ℕ → ℕ))) (hd : draws ≠ [])
    (h : ∀ row ∈ st.df, row_acceptable row) :
    (generate_enhanced_edge_tweet st style draws).isSome = true := by
  cases draws with
  | nil => exact absurd rfl hd
  | cons d rest =>
      obtain ⟨k, g⟩ := d
      rw [generate_enhanced_edge_tweet]
      unfold generate_once
      by_cases he : st.df.isEmpty
      · rw [if_pos he]; rfl
      · rw [if_neg he]
        dsimp only
        cases hf : get_fresh_edge_content st.df st.recent
            (match style with
              | some s => s
              | none => select_generation_style st.df k) g with
        | none => rfl
        | some row =>
            obtain ⟨h1, h2⟩ := h row (get_fresh_edge_content_mem _ _ _ _ _ hf)
            dsimp only
            rw [if_neg h1]
            rw [if_neg h2]
            rfl

/-- Witness for the amended C2: a one-row dataset whose row cleans to an
acceptable string returns a tweet in one try. -/
theorem generate_enhanced_edge_tweet_total_witness :
    (([((0 : ℕ), fun _ => (0 : ℕ))] : List (ℕ × (ℕ → ℕ))) ≠ []) ∧
      (∀ row ∈ (⟨[⟨"authentic hot takes all day long", "general_edge", 9, "b"⟩],
          []⟩ : EdgeState).df, row_acceptable row) ∧
      (generate_enhanced_edge_tweet
          ⟨[⟨"authentic hot takes all day long", "general_edge", 9, "b"⟩], []⟩
          (some "general_edge") [(0, fun _ => 0)]).isSome = true := by
  refine ⟨by simp, ?_, ?_⟩
  · intro row hrow
    simp only [List.mem_singleton] at hrow
    subst hrow
    constructor
    · decide
    · decide
  · apply generate_enhanced_edge_tweet_total _ _ _ (by simp)
    intro row hrow
    simp only [List.mem_singleton] at hrow
    subst hrow
    exact ⟨by decide, by decide⟩

/-! ## Recording on success, and the simple enhanced edge generator
(`simple_enhanced_edge_generator.py`) -/

theorem mem_track_content_usage (recent : List String) (c : String)
    (hcap : recent.length ≤ max_recent) :
    get_content_hash c ∈ track_content_usage recent c := by
  unfold track_content_usage
  dsimp only
  by_cases hc : recent.contains (get_content_hash c)
  · rw [if_pos hc]
    rw [if_neg (Nat.not_lt.mpr hcap)]
    exact List.mem_of_elem_eq_true hc
  · rw [if_neg hc]
    have hlen : (recent ++ [get_content_hash c]).length = recent.length + 1 := by
      simp
    have hm : 1 ≤ max_recent := by norm_num [max_recent]
    by_cases hgt : max_recent < (recent ++ [get_content_hash c]).length
    · rw [if_pos hgt]
      rw [List.drop_append_of_le_length (by omega)]
      exact List.mem_append_right _ (List.mem_singleton.mpr rfl)
    · rw [if_neg hgt]
      exact List.mem_append_right _ (List.mem_singleton.mpr rfl)

/-- Supporting theorem for C9, enhanced generator side: whenever the
top-level generate call returns generated content (neither placeholder),
the raw content of some dataset row was drawn, its cleaned text is the
result, and its fingerprint is in the recency set after the call
(assuming the tracker is within its cap, as every reachable state is by
C4). -/
theorem generate_enhanced_edge_tweet_records (st : EdgeState)
    (style : Option String) (draws : List (ℕ × (ℕ → ℕ))) (s : String)
    (st' : EdgeState) (hcap : st.recent.length ≤ max_recent)
    (h : generate_enhanced_edge_tweet st style draws = some (s, st'))
    (h1 : s ≠ no_content_msg) (h2 : s ≠ no_fresh_msg) :
    ∃ row ∈ st.df, s = apply_length_constraints (clean_edge_for_output row.content)
      ∧ get_content_hash row.content ∈ st'.recent := by
  induction draws with
  | nil => cases h
  | cons d rest ih =>
      obtain ⟨k, g⟩ := d
      rw [generate_enhanced_edge_tweet] at h
      unfold generate_once at h
      by_cases he : st.df.isEmpty
      · rw [if_pos he] at h
        simp only [Option.some.injEq, Prod.mk.injEq] at h
        exact absurd h.1.symm h1
      · rw [if_neg he] at h
        dsimp only at h
        split at h
        · simp only [Option.some.injEq, Prod.mk.injEq] at h
          exact absurd h.1.symm h2
        · rename_i row hf
          by_cases hcl : clean_edge_for_output row.content = ""
          · rw [if_pos hcl] at h
            exact ih h
          · rw [if_neg hcl] at h
            by_cases hfin : apply_length_constraints
                (clean_edge_for_output row.content) = ""
            · rw [if_pos hfin] at h
              exact ih h
            · rw [if_neg hfin] at h
              simp only [Option.some.injEq, Prod.mk.injEq] at h
              obtain ⟨hs, hst⟩ := h
              refine ⟨row, get_fresh_edge_content_mem _ _ _ _ _ hf, hs.symm, ?_⟩
              rw [← hst]
              exact mem_track_content_usage st.recent row.content hcap

/-- One row of the simple generator's pools: the precomputed
`cleaned_content` column and its `content_length`. -/
structure SimpleRow where
  cleaned_content : String
  content_length : ℕ
deriving DecidableEq

/-- `SimpleEnhancedEdgeGenerator`'s state: the four content pools and the
`recent_outputs` set the constructor initializes (lines 26-27,
"Track recent outputs to prevent repetition", `max_recent = 40`). -/
structure SimpleState where
  priority_short_pool : List SimpleRow
  priority_medium_pool : List SimpleRow
  short_pool : List SimpleRow
  medium_pool : List SimpleRow
  recent_outputs : List String
deriving DecidableEq

/-- `re.sub(r'\d{6,}', '', text)`: delete every maximal digit run of six
or more digits (`buf` accumulates the current run). -/
def removeLongNumsAux (buf : List Char) : List Char → List Char
  | [] => if 6 ≤ buf.length then [] else buf
  | c :: cs =>
    if c.isDigit then removeLongNumsAux (buf ++ [c]) cs
    else (if 6 ≤ buf.length then [] else buf) ++ c :: removeLongNumsAux [] cs

/-- `clean_content_for_output` (`simple_enhanced_edge_generator.py`,
lines 141-162): drop every `'>'` and strip; delete 6+-digit runs,
standalone numbers, and leading and trailing digit runs; collapse
whitespace (`' '.join(cleaned.split())`); truncate to 197 characters plus
`"..."` beyond 200; final strip. -/
def clean_content_for_output (content : String) : String :=
  if content = "" then content
  else
    let c1 := stripChars (content.toList.filter (fun c => c != '>'))
    let c2 := removeLongNumsAux [] c1
    let c3 := remove_standalone_nums c2
    let c4 := c3.dropWhile Char.isDigit
    let c5 := (c4.reverse.dropWhile Char.isDigit).reverse
    let c6 := stripChars (collapseWsAux false c5)
    let c7 := if 200 < c6.length then c6.take 197 ++ ("...".toList) else c6
    (stripChars c7).asString

/-- `pool.sample(n=1).iloc[0]['cleaned_content']`, modelled by the draw
`k` reduced mod the pool size; only via its value on non-empty pools (the
source samples only pools it has checked non-empty). -/
def sample_content (pool : List SimpleRow) (k : ℕ) : String :=
  ((pool[k % pool.length]?).map SimpleRow.cleaned_content).getD ""

/-- `generate_tweet` (lines 211-246): with probability 0.7
(`use_priority`, the draw `random.random() < 0.7`) try the priority
short pool then the priority medium pool; otherwise — or when both
priority pools are empty — the general short pool, then the sub-150-char
slice of the medium pool; `"Content pool exhausted"` when everything is
empty.  The returned sample is passed through `clean_content_for_output`. -/
def simple_generate_tweet (st : SimpleState) (use_priority : Bool) (k : ℕ) :
    String :=
  if use_priority && !st.priority_short_pool.isEmpty then
    clean_content_for_output (sample_content st.priority_short_pool k)
  else if use_priority && !st.priority_medium_pool.isEmpty then
    clean_content_for_output (sample_content st.priority_medium_pool k)
  else if !st.short_pool.isEmpty then
    clean_content_for_output (sample_content st.short_pool k)
  else
    let shorter := st.medium_pool.filter (fun r => r.content_length ≤ 150)
    if !shorter.isEmpty then clean_content_for_output (sample_content shorter k)
    else "Content pool exhausted"

/-- The full effect of a `generate_tweet` call on the generator's state:
the method reads the pools and returns a string, and no statement in its
body (lines 211-246) reads or writes `recent_outputs` — so the state,
including the recency set, is returned unchanged. -/
def simple_generate_tweet_step (st : SimpleState) (use_priority : Bool) (k : ℕ) :
    String × SimpleState :=
  (simple_generate_tweet st use_priority k, st)

/-- C9 evaluation at the failing input: a simple-generator call on a
one-row priority pool emits real generated content (not the exhaustion
placeholder), yet afterwards its recency tracker `recent_outputs` is
still empty — the emitted snippet's fingerprint was never recorded. -/
theorem simple_generate_tweet_records_nothing :
    (simple_generate_tweet_step ⟨[⟨"neet life is comfy", 18⟩], [], [], [], []⟩
        true 0).1 = "neet life is comfy" ∧
      (simple_generate_tweet_step ⟨[⟨"neet life is comfy", 18⟩], [], [], [], []⟩
        true 0).1 ≠ "Content pool exhausted" ∧
      (simple_generate_tweet_step ⟨[⟨"neet life is comfy", 18⟩], [], [], [], []⟩
        true 0).2.recent_outputs = [] := by
  refine ⟨by decide, by decide, rfl⟩

end Remgen
